import Mathlib

/-!
Verification of the download / extraction subsystem of Ultrahand-Overlay
(src/source/download_funcs.hpp) against its natural-language specification.

The C++ code is shallowly embedded as follows.

* `std::string` values are modelled as `List Char` (`str` converts a Lean
  string literal).
* The process-wide shared state (`downloadPercentage`, `abortDownload`,
  `abortUnzip`, download_funcs.hpp:34-37) is a `ProgressState` record that is
  threaded explicitly through the operations.
* The filesystem is modelled as a map from paths to file sizes (`FS`);
  `fopen(path, "wb")` creates/truncates an entry, `std::remove` deletes it.
* `double` arguments of the curl progress callback are modelled as `ℚ`;
  C `round` on nonnegative arguments agrees with Mathlib's `round`.
* The blocking `curl_easy_perform` call is modelled by `performTransfer`,
  driven by an environment-chosen list of progress-callback checkpoints.
  Each checkpoint carries a flag saying whether the external execution
  context set the abort flag before that checkpoint fires, plus the two
  `double` arguments curl passes to the callback.
* `curl_easy_init` outcomes, `fopen` outcomes, the transport result and the
  number of bytes the transfer wrote are environment inputs (`DownloadEnv`).
* `logMessage` (debug_funcs.hpp) is append-only and never affects control
  flow; log lines are modelled as tags accumulated in a list.
* `ftell` is called on the destination `FILE*` *after* `fclose`
  (download_funcs.hpp:189 and 206).  The C standard makes the stream pointer
  indeterminate after `fclose`, so that read is modelled by an
  environment-supplied indeterminate value `ftellAfterClose`.
* A ZIP archive is modelled as the list of directory entries `zzip_dir_read`
  yields, each with environment-chosen open/write outcomes
  (`zzip_file_open` / `fopen` success) and a payload size.
* `std::string::back()` on an empty string is undefined behaviour; the one
  place the code can reach it (download_funcs.hpp:105) makes `downloadFile`
  return `Option`, with `none` marking undefined behaviour.
-/

/-- Convert a Lean string literal to the `List Char` model of `std::string`. -/
def str (s : String) : List Char := s.data

/-- The process-wide shared state of download_funcs.hpp:34-37:
`downloadPercentage` (initially -1), `abortDownload`, `abortUnzip`. -/
structure ProgressState where
  percentage : Int
  abortDownload : Bool
  abortUnzip : Bool
deriving DecidableEq

/-- `updateProgress` (download_funcs.hpp:48-61): if `totalToDownload <= 0`
do nothing, otherwise store `round(nowDownloaded / totalToDownload * 100)`
into the percentage field. -/
def updateProgress (st : ProgressState) (totalToDownload nowDownloaded : ℚ) :
    ProgressState :=
  if totalToDownload ≤ 0 then st
  else { st with percentage := round (nowDownloaded / totalToDownload * 100) }

/-- `progressCallback` (download_funcs.hpp:64-82): run `updateProgress`, then
if the abort-download flag is set, store -1 into the percentage and return
nonzero (modelled as `true`) to make curl abort; otherwise return zero
(`false`).  Note that the abort-download flag itself is *not* written here. -/
def progressCallback (st : ProgressState) (totalToDownload nowDownloaded : ℚ) :
    ProgressState × Bool :=
  let st1 := updateProgress st totalToDownload nowDownloaded
  if st1.abortDownload then ({ st1 with percentage := -1 }, true)
  else (st1, false)

/-- One invocation of the curl progress callback during the blocking transfer.
`externalAbort` says whether the other execution context stored `true` into
the abort-download flag between the previous checkpoint and this one. -/
structure Checkpoint where
  externalAbort : Bool
  totalToDownload : ℚ
  nowDownloaded : ℚ

/-- Model of the blocking `curl_easy_perform` (download_funcs.hpp:187): fire
the progress callback at each checkpoint; a nonzero callback return aborts
the transfer (curl then reports a non-OK result).  If no checkpoint aborts,
the transport reports `netOk`.  Returns (shared state, result == CURLE_OK). -/
def performTransfer : ProgressState → List Checkpoint → Bool → ProgressState × Bool
  | st, [], netOk => (st, netOk)
  | st, cp :: rest, netOk =>
    let st0 := if cp.externalAbort then { st with abortDownload := true } else st
    let r := progressCallback st0 cp.totalToDownload cp.nowDownloaded
    if r.2 then (r.1, false) else performTransfer r.1 rest netOk

/-- Tags for the `logMessage` calls of download_funcs.hpp. -/
inductive LogMsg where
  | invalidUrl
  | curlInitRetry
  | curlInitFailed
  | fileOpenError
  | transportError
  | emptyFileError
  | downloadComplete
  | zipOpenError
  | zipEntryOpenError
  | outputOpenError
deriving DecidableEq

/-- The filesystem, as a map from paths to file sizes in bytes. -/
abbrev FS := List Char → Option Nat

/-- Point update of the filesystem map. -/
def FS.set (fs : FS) (p : List Char) (v : Option Nat) : FS :=
  fun q => if q = p then v else fs q

/-- Environment inputs consumed by one `downloadFile` call: `curl_easy_init`
outcomes per attempt, the `fopen` outcome, the checkpoint schedule of the
blocking transfer, the transport result, the number of bytes the write
callback appended to the file, and the indeterminate value produced by
reading `ftell` on the already-closed `FILE*`. -/
structure DownloadEnv where
  initOk : Nat → Bool
  fopenOk : Bool
  checkpoints : List Checkpoint
  netOk : Bool
  bytesWritten : Nat
  ftellAfterClose : Int

/-- Result of a `downloadFile` call: the boolean return value, the final
shared state, the final filesystem, and the log lines emitted. -/
structure DownloadResult where
  ok : Bool
  state : ProgressState
  fs : FS
  logs : List LogMsg

/-- `const int MAX_RETRIES = 3` (download_funcs.hpp:124). -/
def MAX_RETRIES : Nat := 3

/-- The `curl_easy_init` retry loop (download_funcs.hpp:125-138):
`while (retryCount < MAX_RETRIES) { curl = curl_easy_init(); if (curl) break;
retryCount++; log; }`.  Arguments are the current `retryCount` and the number
of loop iterations still permitted; returns (handle acquired?, final
`retryCount`, i.e. the number of failed attempts each of which was logged). -/
def curlInitLoop (initOk : Nat → Bool) : Nat → Nat → Bool × Nat
  | rc, 0 => (false, rc)
  | rc, n + 1 => if initOk rc then (true, rc) else curlInitLoop initOk (rc + 1) n

/-- `url.find_first_of("{}") != npos` (download_funcs.hpp:97); brace
characters written via their code points. -/
def isBraceChar (c : Char) : Bool := c = Char.ofNat 123 || c = Char.ofNat 125

/-- Whether the URL contains a brace character. -/
def hasBraceB (url : List Char) : Bool := url.any isBraceChar

/-- `url.find_last_of('/')` (download_funcs.hpp:109): index of the last
slash, if any. -/
def lastSlashIdx : List Char → Option Nat
  | [] => none
  | c :: cs =>
    match lastSlashIdx cs with
    | some i => some (i + 1)
    | none => if c = '/' then some 0 else none

/-- `downloadFile` (download_funcs.hpp:94-215).  Returns `none` when the
run reaches undefined behaviour (`destination.back()` on an empty string,
download_funcs.hpp:105); otherwise `some` of the observable result.
Control flow, in source order: reset the abort flag; reject brace URLs;
resolve the destination (directory case derives the filename from the URL
and fails on a slash-free URL); the `curl_easy_init` retry loop; `fopen`;
the blocking transfer; cleanup; on a non-OK transport result log and
`remove` the file; otherwise compare the post-`fclose` `ftell` value with 0
and on 0 log and `remove` the file; otherwise report success. -/
def downloadFile (url dest : List Char) (env : DownloadEnv) (st0 : ProgressState)
    (fs : FS) : Option DownloadResult :=
  let st := { st0 with abortDownload := false }
  if hasBraceB url then some ⟨false, st, fs, [.invalidUrl]⟩
  else
    match dest.getLast? with
    | none => none
    | some lastChar =>
      let destination? : Option (List Char) :=
        if lastChar = '/' then
          match lastSlashIdx url with
          | some i => some (dest ++ url.drop (i + 1))
          | none => none
        else some dest
      match destination? with
      | none => some ⟨false, st, fs, [.invalidUrl]⟩
      | some destination =>
        let acq := curlInitLoop env.initOk 0 MAX_RETRIES
        let retryLogs := List.replicate acq.2 LogMsg.curlInitRetry
        if acq.1 = false then some ⟨false, st, fs, retryLogs ++ [.curlInitFailed]⟩
        else if env.fopenOk = false then
          some ⟨false, st, fs, retryLogs ++ [.fileOpenError]⟩
        else
          let fs1 := FS.set fs destination (some 0)
          let tr := performTransfer st env.checkpoints env.netOk
          let fs2 := FS.set fs1 destination (some env.bytesWritten)
          if tr.2 = false then
            some ⟨false, tr.1, FS.set fs2 destination none, retryLogs ++ [.transportError]⟩
          else if env.ftellAfterClose = 0 then
            some ⟨false, tr.1, FS.set fs2 destination none, retryLogs ++ [.emptyFileError]⟩
          else some ⟨true, tr.1, fs2, retryLogs ++ [.downloadComplete]⟩

/-- Replace every colon by a space (`extractedFilePath[colonPos] = ' '` in the
inner scan of download_funcs.hpp:259-263). -/
def replaceAllColons (s : List Char) : List Char :=
  s.map fun c => if c = ':' then ' ' else c

/-- The colon sanitization of download_funcs.hpp:256-264: find the first
colon, then replace every later colon with a space.  The first colon (and
everything when there is no colon) is left untouched. -/
def replaceColonsAfterFirst : List Char → List Char
  | [] => []
  | c :: cs =>
    if c = ':' then c :: replaceAllColons cs
    else c :: replaceColonsAfterFirst cs

/-- `s.find("  ")` on a suffix: index (relative to the suffix) of the first
position where two consecutive spaces start. -/
def findAux : List Char → Option Nat
  | a :: b :: cs =>
    if a = ' ' ∧ b = ' ' then some 0
    else (findAux (b :: cs)).map (· + 1)
  | _ => none

/-- `s.find("  ", start)` (download_funcs.hpp:267,270): first index `≥ start`
where a double space starts. -/
def findFrom (s : List Char) (start : Nat) : Option Nat :=
  (findAux (s.drop start)).map (start + ·)

/-- `s.replace(pos, 2, " ")` (download_funcs.hpp:269): the two characters at
`pos` are replaced by one space. -/
def replace2 (s : List Char) (pos : Nat) : List Char :=
  s.take pos ++ ' ' :: s.drop (pos + 2)

/-- The double-space collapsing loop of download_funcs.hpp:267-271:
`pos = find("  "); while (pos != npos) { replace(pos, 2, " ");
pos = find("  ", pos + 1); }`.  Each iteration shortens the string by one
character, so fuel `s.length` always suffices; the fuel-exhausted branch is
never reached from `collapseDoubleSpaces`. -/
def collapseLoopFuel : Nat → List Char → Nat → List Char
  | 0, s, _ => s
  | fuel + 1, s, start =>
    match findFrom s start with
    | none => s
    | some pos => collapseLoopFuel fuel (replace2 s pos) (pos + 1)

/-- Entry point of the double-space collapsing loop (first search starts at
index 0). -/
def collapseDoubleSpaces (s : List Char) : List Char :=
  collapseLoopFuel s.length s 0

/-- The full per-entry path sanitization of `unzipFile`
(download_funcs.hpp:256-271): colon replacement, then double-space
collapsing. -/
def sanitizePath (p : List Char) : List Char :=
  collapseDoubleSpaces (replaceColonsAfterFirst p)

/-- Boolean scan: does the string contain a colon? -/
def hasColonB : List Char → Bool
  | [] => false
  | c :: cs => c = ':' || hasColonB cs

/-- Boolean scan: does the string contain two consecutive spaces? -/
def hasDoubleB : List Char → Bool
  | a :: b :: cs => (a = ' ' && b = ' ') || hasDoubleB (b :: cs)
  | _ => false

/-- Boolean scan: does the string contain three consecutive spaces? -/
def hasTripleB : List Char → Bool
  | a :: b :: c :: cs => (a = ' ' && b = ' ' && c = ' ') || hasTripleB (b :: c :: cs)
  | _ => false

/-- `extractedFilePath.size() >= 3 && extractedFilePath.substr(size-3) == "..."`
(download_funcs.hpp:253). -/
def endsWithDotsB (s : List Char) : Bool :=
  decide (3 ≤ s.length) && decide (s.drop (s.length - 3) = ['.', '.', '.'])

/-- One archive directory entry as yielded by `zzip_dir_read`, together with
the environment-chosen outcomes of processing it: does `zzip_file_open`
succeed, does `fopen` of the output file succeed, how many bytes does the
entry hold, and did the external context set the abort-unzip flag before
this iteration's abort check. -/
structure ZipEntry where
  name : List Char
  openOk : Bool
  writeOk : Bool
  size : Nat
  externalAbortBefore : Bool

/-- Result of an `unzipFile` call: boolean return value, final shared state,
final filesystem, emitted log lines. -/
structure UnzipResult where
  success : Bool
  state : ProgressState
  fs : FS
  logs : List LogMsg

/-- Prepend a log line to a result (logs are listed in emission order). -/
def prependLog (m : LogMsg) (r : UnzipResult) : UnzipResult :=
  { r with logs := m :: r.logs }

/-- The entry walk of `unzipFile` (download_funcs.hpp:238-312).  Per entry,
in source order: observe (and on abort consume) the abort-unzip flag; skip
empty names; skip paths ending in `"..."`; sanitize the path; skip directory
entries (trailing slash); open the entry inside the archive and the output
file, logging and clearing the success flag on either failure; on success
the streamed entry becomes the file at the sanitized path. -/
def unzipLoop (dest : List Char) : List ZipEntry → ProgressState → FS → Bool → UnzipResult
  | [], st, fs, ok => ⟨ok, st, fs, []⟩
  | e :: rest, st, fs, ok =>
    let st1 := if e.externalAbortBefore then { st with abortUnzip := true } else st
    if st1.abortUnzip then ⟨ok, { st1 with abortUnzip := false }, fs, []⟩
    else if e.name = [] then unzipLoop dest rest st1 fs ok
    else
      let path0 := dest ++ e.name
      if endsWithDotsB path0 then unzipLoop dest rest st1 fs ok
      else
        let path := sanitizePath path0
        if path.getLast? = some '/' then unzipLoop dest rest st1 fs ok
        else if e.openOk then
          if e.writeOk then unzipLoop dest rest st1 (FS.set fs path (some e.size)) ok
          else prependLog .outputOpenError (unzipLoop dest rest st1 fs false)
        else prependLog .zipEntryOpenError (unzipLoop dest rest st1 fs false)

/-- `unzipFile` (download_funcs.hpp:227-316): reset the abort-unzip flag,
fail if the archive cannot be opened (`zipOk` is the environment-chosen
`zzip_dir_open` outcome), otherwise walk the entries with the success flag
initially true. -/
def unzipFile (zipOk : Bool) (entries : List ZipEntry) (dest : List Char)
    (st0 : ProgressState) (fs : FS) : UnzipResult :=
  let st := { st0 with abortUnzip := false }
  if zipOk then unzipLoop dest entries st fs true
  else ⟨false, st, fs, [.zipOpenError]⟩

/-- Whether processing an entry leaves the success flag intact: the entry is
skipped (empty name, `"..."` suffix, directory) or both opens succeed. -/
def entryProcessedOk (dest : List Char) (e : ZipEntry) : Bool :=
  if e.name = [] then true
  else if endsWithDotsB (dest ++ e.name) then true
  else if (sanitizePath (dest ++ e.name)).getLast? = some '/' then true
  else e.openOk && e.writeOk

/-- Whether an entry is actually extracted to a file: not skipped and both
opens succeed. -/
def entryExtracted (dest : List Char) (e : ZipEntry) : Bool :=
  if e.name = [] then false
  else if endsWithDotsB (dest ++ e.name) then false
  else if (sanitizePath (dest ++ e.name)).getLast? = some '/' then false
  else e.openOk && e.writeOk

/-- The log lines an entry contributes. -/
def entryFailLogs (dest : List Char) (e : ZipEntry) : List LogMsg :=
  if entryProcessedOk dest e then []
  else if e.openOk then [.outputOpenError] else [.zipEntryOpenError]

/-- There is a space at index `j`. -/
def spaceAt (s : List Char) (j : Nat) : Prop := s[j]? = some ' '

/-- A double space starts at index `j`. -/
def isDouble (s : List Char) (j : Nat) : Prop := spaceAt s j ∧ spaceAt s (j + 1)

/-- A triple space starts at index `j`. -/
def isTriple (s : List Char) (j : Nat) : Prop :=
  spaceAt s j ∧ spaceAt s (j + 1) ∧ spaceAt s (j + 2)

/-- No double space anywhere. -/
def noDouble (s : List Char) : Prop := ∀ j, ¬ isDouble s j

/-- No triple space anywhere. -/
def noTriple (s : List Char) : Prop := ∀ j, ¬ isTriple s j

/-- No double space starting strictly below index `n`. -/
def noDoubleBelow (s : List Char) (n : Nat) : Prop := ∀ j, j < n → ¬ isDouble s j

/-- The Progress Channel invariant claimed by the spec: the percentage is
always in [-1, 100]. -/
def progressInv (st : ProgressState) : Prop :=
  -1 ≤ st.percentage ∧ st.percentage ≤ 100

def extractFS (dest : List Char) (entries : List ZipEntry) (fs : FS) : FS :=
  entries.foldl
    (fun f e =>
      if entryExtracted dest e then FS.set f (sanitizePath (dest ++ e.name)) (some e.size)
      else f)
    fs

theorem updateProgress_abortDownload (st : ProgressState) (t n : ℚ) :
    (updateProgress st t n).abortDownload = st.abortDownload := by
  unfold updateProgress
  split <;> rfl

theorem updateProgress_abortUnzip (st : ProgressState) (t n : ℚ) :
    (updateProgress st t n).abortUnzip = st.abortUnzip := by
  unfold updateProgress
  split <;> rfl

theorem round_bounds (x : ℚ) (h1 : 0 ≤ x) (h2 : x ≤ 100) :
    (0 : ℤ) ≤ round x ∧ round x ≤ 100 := by
  constructor
  · rw [round_eq]
    have h : (0 : ℤ) = ⌊(0 : ℚ) + 1 / 2⌋ := by norm_num
    rw [h]
    exact Int.floor_le_floor (by linarith)
  · rw [round_eq]
    have h : (100 : ℤ) = ⌊(100 : ℚ) + 1 / 2⌋ := by norm_num [Int.floor_eq_iff]
    rw [h]
    exact Int.floor_le_floor (by linarith)

/-- C3 (counterexample): with the abort-download flag set, one invocation of
the progress callback observes the flag (returns the abort signal), yet the
flag still reads `true` afterwards: the Transfer Engine does not consume it. -/
theorem progressCallback_does_not_clear_flag :
    (progressCallback ⟨0, true, false⟩ 100 50).2 = true
    ∧ (progressCallback ⟨0, true, false⟩ 100 50).1.abortDownload = true := by
  decide

/-- C3 (amended): the progress callback never writes the abort-download flag,
so the flag is unchanged by the observation; it is reset only at the start of
the next `downloadFile` call, whose behaviour is therefore independent of the
flag's initial value. -/
theorem abort_download_flag_reset_only_on_next_download (st : ProgressState)
    (t n : ℚ) (url dest : List Char) (env : DownloadEnv) (fs : FS) :
    (progressCallback st t n).1.abortDownload = st.abortDownload
    ∧ downloadFile url dest env st fs
      = downloadFile url dest env { st with abortDownload := false } fs := by
  constructor
  · unfold progressCallback
    dsimp only
    split <;> simp [updateProgress_abortDownload]
  · rfl

/-- C9: the progress update leaves the percentage untouched when
`totalToDownload ≤ 0`; otherwise, under `0 ≤ nowDownloaded ≤ totalToDownload`,
the stored `round(now/total*100)` lies in [0, 100]; and one full progress
callback (including the -1 abort reset) maps a percentage in [-1, 100] to a
percentage in [-1, 100]. -/
theorem progress_percentage_bounds (st : ProgressState) (t n : ℚ)
    (hInv : progressInv st) (hb : 0 < t → 0 ≤ n ∧ n ≤ t) :
    (t ≤ 0 → updateProgress st t n = st)
    ∧ (0 < t → 0 ≤ (updateProgress st t n).percentage
        ∧ (updateProgress st t n).percentage ≤ 100)
    ∧ progressInv (updateProgress st t n)
    ∧ progressInv (progressCallback st t n).1 := by
  have hupd : 0 < t → 0 ≤ (updateProgress st t n).percentage
      ∧ (updateProgress st t n).percentage ≤ 100 := by
    intro ht
    obtain ⟨hn0, hnt⟩ := hb ht
    have hx0 : 0 ≤ n / t * 100 := by positivity
    have hx1 : n / t * 100 ≤ 100 := by
      have : n / t ≤ 1 := (div_le_one ht).mpr hnt
      nlinarith
    unfold updateProgress
    rw [if_neg (not_le.mpr ht)]
    exact round_bounds _ hx0 hx1
  have hid : t ≤ 0 → updateProgress st t n = st := by
    intro ht
    unfold updateProgress
    rw [if_pos ht]
  have hupdInv : progressInv (updateProgress st t n) := by
    rcases le_or_lt t 0 with ht | ht
    · rw [hid ht]; exact hInv
    · obtain ⟨h1, h2⟩ := hupd ht
      exact ⟨by linarith, h2⟩
  refine ⟨hid, hupd, hupdInv, ?_⟩
  unfold progressCallback
  dsimp only
  split
  · exact ⟨by norm_num, by norm_num⟩
  · exact hupdInv

theorem progress_percentage_bounds_witness :
    progressInv (progressCallback ⟨-1, false, false⟩ 100 50).1 :=
  (progress_percentage_bounds ⟨-1, false, false⟩ 100 50
    (by constructor <;> norm_num) (by norm_num)).2.2.2

/-- C1: a run in which the transport reports success and zero bytes were
written to the destination.  Because `ftell` is invoked on the already-closed
`FILE*` (download_funcs.hpp:189 then 206), the size check reads an
indeterminate value (here the error value -1, never 0), so `downloadFile`
returns `true` and the zero-byte destination file is NOT deleted —
contradicting the specified empty-file handling. -/
theorem downloadFile_empty_file_check_ineffective :
    (downloadFile (str "http://x/f") (str "/out/f")
      ⟨fun _ => true, true, [], true, 0, -1⟩ ⟨-1, false, false⟩ (fun _ => none)).map
      (fun r => (r.ok, r.fs (str "/out/f"), r.logs))
      = some (true, some 0, [.downloadComplete]) := by
  decide

/-- C8: when `curl_easy_init` fails on all of the `MAX_RETRIES = 3` attempts,
`downloadFile` logs one retry line per failed attempt, then a permanent
failure line, and returns false with the filesystem (and shared state, apart
from the initial abort-flag reset) untouched: no transfer is performed. -/
theorem downloadFile_curl_retry_cap (url dest : List Char) (env : DownloadEnv)
    (st : ProgressState) (fs : FS) (c : Char)
    (hurl : hasBraceB url = false) (hdest : dest.getLast? = some c) (hc : c ≠ '/')
    (h0 : env.initOk 0 = false) (h1 : env.initOk 1 = false) (h2 : env.initOk 2 = false) :
    downloadFile url dest env st fs
      = some ⟨false, { st with abortDownload := false }, fs,
          [.curlInitRetry, .curlInitRetry, .curlInitRetry, .curlInitFailed]⟩ := by
  unfold downloadFile
  rw [hdest]
  simp [hurl, hc, MAX_RETRIES, curlInitLoop, h0, h1, h2, List.replicate]

theorem downloadFile_curl_retry_cap_witness :
    downloadFile (str "http://a/b") (str "/out/f")
      ⟨fun _ => false, true, [], true, 0, -1⟩ ⟨-1, false, false⟩ (fun _ => none)
      = some ⟨false, ⟨-1, false, false⟩, fun _ => none,
          [.curlInitRetry, .curlInitRetry, .curlInitRetry, .curlInitFailed]⟩ :=
  downloadFile_curl_retry_cap (str "http://a/b") (str "/out/f")
    ⟨fun _ => false, true, [], true, 0, -1⟩ ⟨-1, false, false⟩ (fun _ => none) 'f'
    (by decide) (by decide) (by decide) rfl rfl rfl

/-- C10: with a brace-free URL, `downloadFile` reaches undefined behaviour
(modelled as `none`) exactly when the destination path is the empty string:
`destination.back()` (download_funcs.hpp:105) is read before any emptiness
validation, so non-emptiness of the destination is a genuine precondition. -/
theorem downloadFile_requires_nonempty_dest (url dest : List Char)
    (env : DownloadEnv) (st : ProgressState) (fs : FS)
    (hurl : hasBraceB url = false) :
    downloadFile url dest env st fs = none ↔ dest = [] := by
  constructor
  · intro h
    by_contra hne
    cases hl : dest.getLast? with
    | none => exact hne (List.getLast?_eq_none_iff.mp hl)
    | some c =>
      unfold downloadFile at h
      rw [hl] at h
      simp only [hurl, Bool.false_eq_true, if_false] at h
      repeat' split at h
      all_goals exact Option.noConfusion h
  · intro h
    subst h
    unfold downloadFile
    simp [hurl]

theorem progressCallback_of_flag (st : ProgressState) (t n : ℚ)
    (h : st.abortDownload = true) :
    progressCallback st t n = ({ updateProgress st t n with percentage := -1 }, true) := by
  unfold progressCallback
  dsimp only
  rw [if_pos (by rw [updateProgress_abortDownload]; exact h)]

theorem progressCallback_continue (st : ProgressState) (t n : ℚ)
    (h : st.abortDownload = false) :
    progressCallback st t n = (updateProgress st t n, false) := by
  unfold progressCallback
  dsimp only
  rw [if_neg (by rw [updateProgress_abortDownload, h]; simp)]

theorem performTransfer_abort (cps : List Checkpoint) (st : ProgressState) (netOk : Bool)
    (h : (st.abortDownload = true ∧ cps ≠ []) ∨ cps.any (·.externalAbort) = true) :
    (performTransfer st cps netOk).1.percentage = -1
    ∧ (performTransfer st cps netOk).1.abortDownload = true
    ∧ (performTransfer st cps netOk).2 = false := by
  induction cps generalizing st with
  | nil =>
    rcases h with ⟨_, hne⟩ | hany
    · exact absurd rfl hne
    · simp at hany
  | cons cp rest ih =>
    by_cases hf : (if cp.externalAbort then { st with abortDownload := true } else st).abortDownload = true
    · have hpc := progressCallback_of_flag _ cp.totalToDownload cp.nowDownloaded hf
      simp only [performTransfer, hpc]
      refine ⟨rfl, ?_, rfl⟩
      show (updateProgress _ cp.totalToDownload cp.nowDownloaded).abortDownload = true
      rw [updateProgress_abortDownload]
      exact hf
    · have hcp : cp.externalAbort = false := by
        cases hx : cp.externalAbort
        · rfl
        · simp [hx] at hf
      have hst : st.abortDownload = false := by
        rw [if_neg (by simp [hcp])] at hf
        cases hb : st.abortDownload
        · rfl
        · exact absurd hb hf
      have hrest : rest.any (·.externalAbort) = true := by
        rcases h with ⟨habs, _⟩ | hany
        · rw [hst] at habs; cases habs
        · simpa [hcp] using hany
      have hpc := progressCallback_continue st cp.totalToDownload cp.nowDownloaded hst
      have hstep : performTransfer st (cp :: rest) netOk
          = performTransfer (updateProgress st cp.totalToDownload cp.nowDownloaded) rest netOk := by
        simp only [performTransfer, hcp, Bool.false_eq_true, if_false, hpc]
      rw [hstep]
      exact ih _ (Or.inr hrest)

/-- C2: if the external context sets the abort-download flag before some
checkpoint of the transfer, `downloadFile` returns false, the published
percentage reads -1 on return, and the (partial) destination file has been
deleted by the engine itself. -/
theorem downloadFile_abort_cleans_up (url dest : List Char) (env : DownloadEnv)
    (st : ProgressState) (fs : FS) (c : Char)
    (hurl : hasBraceB url = false) (hdest : dest.getLast? = some c) (hc : c ≠ '/')
    (hinit : env.initOk 0 = true) (hfopen : env.fopenOk = true)
    (habort : env.checkpoints.any (·.externalAbort) = true) :
    ∃ r, downloadFile url dest env st fs = some r
      ∧ r.ok = false ∧ r.state.percentage = -1 ∧ r.fs dest = none := by
  obtain ⟨hp, _, htr⟩ := performTransfer_abort env.checkpoints
    { st with abortDownload := false } env.netOk (Or.inr habort)
  unfold downloadFile
  rw [hdest]
  have hacq : curlInitLoop env.initOk 0 MAX_RETRIES = (true, 0) := by
    simp [MAX_RETRIES, curlInitLoop, hinit]
  simp only [hurl, Bool.false_eq_true, if_false, if_neg hc, hacq, hfopen]
  simp only [htr, if_pos]
  exact ⟨_, rfl, rfl, hp, by simp [FS.set]⟩

theorem unzipLoop_no_abort (dest : List Char) (entries : List ZipEntry)
    (st : ProgressState) (fs : FS) (ok : Bool)
    (hst : st.abortUnzip = false)
    (hent : ∀ e ∈ entries, e.externalAbortBefore = false) :
    unzipLoop dest entries st fs ok
      = ⟨ok && entries.all (entryProcessedOk dest), st, extractFS dest entries fs,
         (entries.map (entryFailLogs dest)).flatten⟩ := by
  induction entries generalizing fs ok with
  | nil => simp [unzipLoop, extractFS]
  | cons e rest ih =>
    have he : e.externalAbortBefore = false := hent e (List.mem_cons_self e rest)
    have hrest : ∀ x ∈ rest, x.externalAbortBefore = false :=
      fun x hx => hent x (List.mem_cons_of_mem e hx)
    have hstep : unzipLoop dest (e :: rest) st fs ok
        = (if e.name = [] then unzipLoop dest rest st fs ok
           else if endsWithDotsB (dest ++ e.name) = true then unzipLoop dest rest st fs ok
           else if (sanitizePath (dest ++ e.name)).getLast? = some '/' then
             unzipLoop dest rest st fs ok
           else if e.openOk = true then
             if e.writeOk = true then
               unzipLoop dest rest st (FS.set fs (sanitizePath (dest ++ e.name)) (some e.size)) ok
             else prependLog .outputOpenError (unzipLoop dest rest st fs false)
           else prependLog .zipEntryOpenError (unzipLoop dest rest st fs false)) := by
      simp only [unzipLoop, he, hst, Bool.false_eq_true, if_false]
    rw [hstep]
    by_cases h1 : e.name = []
    · have hp : entryProcessedOk dest e = true := by simp [entryProcessedOk, h1]
      have hx : entryExtracted dest e = false := by simp [entryExtracted, h1]
      have hl : entryFailLogs dest e = [] := by simp [entryFailLogs, hp]
      rw [if_pos h1, ih fs ok hrest]
      simp [extractFS, hp, hx, hl]
    · rw [if_neg h1]
      cases h2 : endsWithDotsB (dest ++ e.name) with
      | true =>
        have hp : entryProcessedOk dest e = true := by simp [entryProcessedOk, h1, h2]
        have hx : entryExtracted dest e = false := by simp [entryExtracted, h1, h2]
        have hl : entryFailLogs dest e = [] := by simp [entryFailLogs, hp]
        rw [if_pos rfl, ih fs ok hrest]
        simp [extractFS, hp, hx, hl]
      | false =>
        simp only [Bool.false_eq_true, if_false]
        by_cases h3 : (sanitizePath (dest ++ e.name)).getLast? = some '/'
        · have hp : entryProcessedOk dest e = true := by
            simp [entryProcessedOk, h1, h2, h3]
          have hx : entryExtracted dest e = false := by
            simp [entryExtracted, h1, h2, h3]
          have hl : entryFailLogs dest e = [] := by simp [entryFailLogs, hp]
          rw [if_pos h3, ih fs ok hrest]
          simp [extractFS, hp, hx, hl]
        · rw [if_neg h3]
          cases h4 : e.openOk with
          | true =>
            cases h5 : e.writeOk with
            | true =>
              have hp : entryProcessedOk dest e = true := by
                simp [entryProcessedOk, h1, h2, h3, h4, h5]
              have hx : entryExtracted dest e = true := by
                simp [entryExtracted, h1, h2, h3, h4, h5]
              have hl : entryFailLogs dest e = [] := by simp [entryFailLogs, hp]
              rw [if_pos rfl, if_pos rfl, ih _ ok hrest]
              simp [extractFS, hp, hx, hl]
            | false =>
              have hp : entryProcessedOk dest e = false := by
                simp [entryProcessedOk, h1, h2, h3, h4, h5]
              have hx : entryExtracted dest e = false := by
                simp [entryExtracted, h1, h2, h3, h4, h5]
              have hl : entryFailLogs dest e = [.outputOpenError] := by
                simp [entryFailLogs, hp, h4]
              rw [if_pos rfl]
              simp only [Bool.false_eq_true, if_false]
              rw [ih fs false hrest]
              simp [extractFS, hp, hx, hl, prependLog]
          | false =>
            have hp : entryProcessedOk dest e = false := by
              simp [entryProcessedOk, h1, h2, h3, h4]
            have hx : entryExtracted dest e = false := by
              simp [entryExtracted, h1, h2, h3, h4]
            have hl : entryFailLogs dest e = [.zipEntryOpenError] := by
              simp [entryFailLogs, hp, h4]
            simp only [Bool.false_eq_true, if_false]
            rw [ih fs false hrest]
            simp [extractFS, hp, hx, hl, prependLog]

theorem extractFS_mono (dest : List Char) (entries : List ZipEntry) :
    ∀ (fs : FS) (p : List Char), (fs p).isSome = true
      → ((extractFS dest entries fs) p).isSome = true := by
  induction entries with
  | nil => intro fs p h; simpa [extractFS] using h
  | cons e rest ih =>
    intro fs p h
    have hstep : ((if entryExtracted dest e then
        FS.set fs (sanitizePath (dest ++ e.name)) (some e.size) else fs) p).isSome = true := by
      split
      · by_cases hp : p = sanitizePath (dest ++ e.name) <;> simp [FS.set, hp, h]
      · exact h
    simpa [extractFS, List.foldl_cons] using ih _ p hstep

theorem extractFS_extracted (dest : List Char) (entries : List ZipEntry) :
    ∀ (fs : FS) (e : ZipEntry), e ∈ entries → entryExtracted dest e = true →
      ((extractFS dest entries fs) (sanitizePath (dest ++ e.name))).isSome = true := by
  induction entries with
  | nil => intro fs e he; cases he
  | cons e0 rest ih =>
    intro fs e he hex
    rcases List.mem_cons.mp he with rfl | hmem
    · have hset : ((if entryExtracted dest e then
          FS.set fs (sanitizePath (dest ++ e.name)) (some e.size) else fs)
          (sanitizePath (dest ++ e.name))).isSome = true := by
        rw [if_pos hex]
        simp [FS.set]
      simpa [extractFS, List.foldl_cons] using extractFS_mono dest rest _ _ hset
    · simpa [extractFS, List.foldl_cons] using ih _ e hmem hex

/-- C6: `unzipFile` returns true iff the archive opened and every entry was
processed cleanly (skipped, or both its archive-side open and its output-file
open succeeded); each per-entry failure contributes exactly its log line and
clears the aggregate flag without stopping the walk, so every other
successfully-extracted entry is still present in the destination tree. -/
theorem unzipFile_success_iff (zipOk : Bool) (entries : List ZipEntry)
    (dest : List Char) (st : ProgressState) (fs : FS)
    (hent : ∀ e ∈ entries, e.externalAbortBefore = false) :
    (unzipFile zipOk entries dest st fs).success
        = (zipOk && entries.all (entryProcessedOk dest))
    ∧ (zipOk = true → (unzipFile zipOk entries dest st fs).logs
        = (entries.map (entryFailLogs dest)).flatten)
    ∧ ∀ e ∈ entries, entryExtracted dest e = true → zipOk = true →
        ((unzipFile zipOk entries dest st fs).fs (sanitizePath (dest ++ e.name))).isSome
          = true := by
  cases zipOk with
  | false => simp [unzipFile]
  | true =>
    have hc := unzipLoop_no_abort dest entries { st with abortUnzip := false } fs true rfl hent
    unfold unzipFile
    simp only [if_pos rfl, hc]
    refine ⟨by simp, fun _ => rfl, ?_⟩
    intro e he hex _
    exact extractFS_extracted dest entries fs e he hex

theorem unzipFile_success_iff_witness :
    (unzipFile true
        [⟨str "a.txt", true, true, 3, false⟩, ⟨str "b.txt", false, true, 4, false⟩,
         ⟨str "c.txt", true, true, 5, false⟩]
        (str "/out/") ⟨-1, false, false⟩ (fun _ => none)).success = false :=
  ((unzipFile_success_iff true
    [⟨str "a.txt", true, true, 3, false⟩, ⟨str "b.txt", false, true, 4, false⟩,
     ⟨str "c.txt", true, true, 5, false⟩]
    (str "/out/") ⟨-1, false, false⟩ (fun _ => none) (by decide)).1).trans (by decide)

theorem unzipLoop_abort_prefix (dest : List Char) (pre rest : List ZipEntry)
    (eA : ZipEntry) (st : ProgressState)
    (hst : st.abortUnzip = false)
    (hpre : ∀ e ∈ pre, e.externalAbortBefore = false)
    (hA : eA.externalAbortBefore = true) :
    ∀ (fs : FS) (ok : Bool),
      unzipLoop dest (pre ++ eA :: rest) st fs ok = unzipLoop dest pre st fs ok := by
  induction pre with
  | nil =>
    intro fs ok
    simp only [List.nil_append, unzipLoop, hA, if_pos rfl]
    cases st
    simp_all [unzipLoop]
  | cons e pre' ih =>
    intro fs ok
    have he : e.externalAbortBefore = false := hpre e (List.mem_cons_self e pre')
    have hpre' : ∀ x ∈ pre', x.externalAbortBefore = false :=
      fun x hx => hpre x (List.mem_cons_of_mem e hx)
    simp only [List.cons_append, unzipLoop, he, hst, Bool.false_eq_true, if_false]
    split_ifs <;>
      first
        | exact ih hpre' _ _
        | exact congrArg (prependLog _) (ih hpre' _ _)

/-- C7: during `unzipFile` the abort-unzip flag is observed at the top of each
per-entry iteration; when it is found set there, the flag is reset to false,
no further entries are processed, and the call returns exactly what a run on
the preceding entries alone would have returned (an abort is not a failure). -/
theorem unzipFile_abort_stops_and_consumes (pre rest : List ZipEntry)
    (eA : ZipEntry) (dest : List Char) (st : ProgressState) (fs : FS)
    (hpre : ∀ e ∈ pre, e.externalAbortBefore = false)
    (hA : eA.externalAbortBefore = true) :
    unzipFile true (pre ++ eA :: rest) dest st fs = unzipFile true pre dest st fs
    ∧ (unzipFile true (pre ++ eA :: rest) dest st fs).state.abortUnzip = false := by
  have h1 : unzipFile true (pre ++ eA :: rest) dest st fs = unzipFile true pre dest st fs := by
    unfold unzipFile
    simp only [if_pos rfl]
    exact unzipLoop_abort_prefix dest pre rest eA _ rfl hpre hA fs true
  refine ⟨h1, ?_⟩
  rw [h1]
  have hc := unzipLoop_no_abort dest pre { st with abortUnzip := false } fs true rfl hpre
  unfold unzipFile
  simp only [if_pos rfl, hc]
  simp

theorem unzipFile_abort_stops_and_consumes_witness :
    unzipFile true
        [⟨str "a.txt", true, true, 3, false⟩, ⟨str "b.txt", true, true, 4, true⟩,
         ⟨str "c.txt", true, true, 5, false⟩]
        (str "/out/") ⟨-1, false, false⟩ (fun _ => none)
      = unzipFile true [⟨str "a.txt", true, true, 3, false⟩] (str "/out/")
          ⟨-1, false, false⟩ (fun _ => none) :=
  (unzipFile_abort_stops_and_consumes [⟨str "a.txt", true, true, 3, false⟩]
    [⟨str "c.txt", true, true, 5, false⟩] ⟨str "b.txt", true, true, 4, true⟩
    (str "/out/") ⟨-1, false, false⟩ (fun _ => none) (by decide) rfl).1

theorem downloadFile_abort_cleans_up_witness :
    ∃ r, downloadFile (str "http://a/b") (str "/out/f")
        ⟨fun _ => true, true, [⟨true, 100, 10⟩], true, 5, 5⟩ ⟨-1, false, false⟩
        (fun _ => none) = some r
      ∧ r.ok = false ∧ r.state.percentage = -1 ∧ r.fs (str "/out/f") = none :=
  downloadFile_abort_cleans_up (str "http://a/b") (str "/out/f")
    ⟨fun _ => true, true, [⟨true, 100, 10⟩], true, 5, 5⟩ ⟨-1, false, false⟩
    (fun _ => none) 'f' (by decide) (by decide) (by decide) rfl rfl (by decide)

theorem downloadFile_requires_nonempty_dest_witness :
    downloadFile (str "http://a/b") [] ⟨fun _ => true, true, [], true, 0, -1⟩
      ⟨-1, false, false⟩ (fun _ => none) = none :=
  (downloadFile_requires_nonempty_dest (str "http://a/b") []
    ⟨fun _ => true, true, [], true, 0, -1⟩ ⟨-1, false, false⟩ (fun _ => none)
    (by decide)).mpr rfl

theorem spaceAt_lt (s : List Char) (j : Nat) (h : spaceAt s j) : j < s.length := by
  unfold spaceAt at h
  by_contra hc
  rw [List.getElem?_eq_none (Nat.le_of_not_lt hc)] at h
  exact Option.noConfusion h

theorem findAux_some_isDouble (s : List Char) : ∀ k, findAux s = some k → isDouble s k := by
  induction s with
  | nil => intro k h; simp [findAux] at h
  | cons a t ih =>
    intro k h
    cases t with
    | nil => simp [findAux] at h
    | cons b u =>
      simp only [findAux] at h
      split at h
      next hab =>
        injection h with hk
        subst hk
        obtain ⟨ha, hb⟩ := hab
        exact ⟨by simp [spaceAt, ha], by simp [spaceAt, hb]⟩
      next hab =>
        cases hf : findAux (b :: u) with
        | none => rw [hf] at h; simp at h
        | some k' =>
          rw [hf] at h
          simp only [Option.map_some'] at h
          injection h with hk
          subst hk
          have hd := ih k' hf
          exact ⟨by simpa [spaceAt] using hd.1, by simpa [spaceAt] using hd.2⟩

theorem findAux_none_noDouble (s : List Char) (h : findAux s = none) : noDouble s := by
  induction s with
  | nil => intro j hd; exact absurd hd.1 (by simp [spaceAt])
  | cons a t ih =>
    cases t with
    | nil =>
      intro j hd
      have h2 := hd.2
      unfold spaceAt at h2
      rcases j with _ | j' <;> simp at h2
    | cons b u =>
      simp only [findAux] at h
      split at h
      next => exact Option.noConfusion h
      next hab =>
        have hf : findAux (b :: u) = none := by
          cases hf : findAux (b :: u) with
          | none => rfl
          | some k' => rw [hf] at h; simp at h
        intro j hd
        rcases j with _ | j'
        · obtain ⟨h1, h2⟩ := hd
          unfold spaceAt at h1 h2
          simp at h1 h2
          exact hab ⟨h1, h2⟩
        · have : isDouble (b :: u) j' :=
            ⟨by simpa [spaceAt] using hd.1, by simpa [spaceAt] using hd.2⟩
          exact ih hf j' this

theorem findAux_min (s : List Char) : ∀ k, findAux s = some k →
    ∀ j, j < k → ¬ isDouble s j := by
  induction s with
  | nil => intro k h; simp [findAux] at h
  | cons a t ih =>
    intro k h
    cases t with
    | nil => simp [findAux] at h
    | cons b u =>
      simp only [findAux] at h
      split at h
      next =>
        injection h with hk
        subst hk
        intro j hj
        exact absurd hj (Nat.not_lt_zero j)
      next hab =>
        cases hf : findAux (b :: u) with
        | none => rw [hf] at h; simp at h
        | some k' =>
          rw [hf] at h
          simp only [Option.map_some'] at h
          injection h with hk
          subst hk
          intro j hj hd
          rcases j with _ | j'
          · obtain ⟨h1, h2⟩ := hd
            unfold spaceAt at h1 h2
            simp at h1 h2
            exact hab ⟨h1, h2⟩
          · have : isDouble (b :: u) j' :=
              ⟨by simpa [spaceAt] using hd.1, by simpa [spaceAt] using hd.2⟩
            exact ih k' hf j' (by omega) this

theorem findFrom_some (s : List Char) (start p : Nat) (h : findFrom s start = some p) :
    start ≤ p ∧ isDouble s p := by
  unfold findFrom at h
  cases hf : findAux (s.drop start) with
  | none => rw [hf] at h; exact Option.noConfusion h
  | some k =>
    rw [hf] at h
    simp only [Option.map_some'] at h
    injection h with hk
    subst hk
    have hd := findAux_some_isDouble _ k hf
    refine ⟨Nat.le_add_right start k, ?_⟩
    obtain ⟨h1, h2⟩ := hd
    unfold spaceAt at h1 h2
    rw [List.getElem?_drop] at h1 h2
    refine ⟨h1, ?_⟩
    unfold spaceAt
    rw [show start + k + 1 = start + (k + 1) from by omega]
    exact h2

theorem findFrom_none (s : List Char) (start : Nat) (h : findFrom s start = none) :
    ∀ j, start ≤ j → ¬ isDouble s j := by
  intro j hj hd
  have hfa : findAux (s.drop start) = none := by
    cases hf : findAux (s.drop start) with
    | none => rfl
    | some k => unfold findFrom at h; rw [hf] at h; simp at h
  apply findAux_none_noDouble _ hfa (j - start)
  obtain ⟨h1, h2⟩ := hd
  unfold spaceAt at h1 h2
  constructor
  · unfold spaceAt
    rw [List.getElem?_drop, show start + (j - start) = j from by omega]
    exact h1
  · unfold spaceAt
    rw [List.getElem?_drop, show start + (j - start + 1) = j + 1 from by omega]
    exact h2

theorem findFrom_min (s : List Char) (start p : Nat) (h : findFrom s start = some p) :
    ∀ j, start ≤ j → j < p → ¬ isDouble s j := by
  intro j hj hjp hd
  unfold findFrom at h
  cases hf : findAux (s.drop start) with
  | none => rw [hf] at h; exact Option.noConfusion h
  | some k =>
    rw [hf] at h
    simp only [Option.map_some'] at h
    injection h with hk
    subst hk
    apply findAux_min _ k hf (j - start) (by omega)
    obtain ⟨h1, h2⟩ := hd
    unfold spaceAt at h1 h2
    constructor
    · unfold spaceAt
      rw [List.getElem?_drop, show start + (j - start) = j from by omega]
      exact h1
    · unfold spaceAt
      rw [List.getElem?_drop, show start + (j - start + 1) = j + 1 from by omega]
      exact h2

theorem replace2_length (s : List Char) (pos : Nat) (h : pos + 2 ≤ s.length) :
    (replace2 s pos).length = s.length - 1 := by
  unfold replace2
  simp only [List.length_append, List.length_take, List.length_cons, List.length_drop]
  rw [Nat.min_eq_left (by omega)]
  omega

theorem replace2_getElem_lt (s : List Char) (pos j : Nat) (h : pos + 2 ≤ s.length)
    (hj : j < pos) : (replace2 s pos)[j]? = s[j]? := by
  unfold replace2
  rw [List.getElem?_append]
  rw [if_pos (by rw [List.length_take]; omega)]
  simp [List.getElem?_take, hj]

theorem replace2_getElem_self (s : List Char) (pos : Nat) (h : pos + 2 ≤ s.length) :
    (replace2 s pos)[pos]? = some ' ' := by
  unfold replace2
  rw [List.getElem?_append]
  rw [if_neg (by rw [List.length_take]; omega)]
  rw [List.length_take, Nat.min_eq_left (by omega), Nat.sub_self]
  simp

theorem replace2_getElem_gt (s : List Char) (pos j : Nat) (h : pos + 2 ≤ s.length)
    (hj : pos < j) : (replace2 s pos)[j]? = s[j + 1]? := by
  unfold replace2
  rw [List.getElem?_append]
  rw [if_neg (by rw [List.length_take]; omega)]
  rw [List.length_take, Nat.min_eq_left (by omega)]
  rw [show j - pos = (j - pos - 1) + 1 from by omega, List.getElem?_cons_succ,
    List.getElem?_drop]
  rw [show pos + 2 + (j - pos - 1) = j + 1 from by omega]

theorem replace2_noTriple (s : List Char) (pos : Nat) (h2 : pos + 2 ≤ s.length)
    (hd : isDouble s pos) (hmin : ∀ j, j < pos → ¬ isDouble s j) (hnt : noTriple s) :
    noTriple (replace2 s pos) := by
  intro j ht
  obtain ⟨t0, t1, t2⟩ := ht
  unfold spaceAt at t0 t1 t2
  rcases Nat.lt_or_ge j pos with hjp | hjp
  · -- j < pos: r[j]? = s[j]?
    rw [replace2_getElem_lt s pos j h2 hjp] at t0
    rcases Nat.lt_or_ge (j + 1) pos with hj1 | hj1
    · -- j + 1 < pos: r[j+1]? = s[j+1]?: double at j in s below pos
      rw [replace2_getElem_lt s pos (j + 1) h2 hj1] at t1
      exact hmin j hjp ⟨t0, t1⟩
    · -- j + 1 = pos: s[j]? = ' ', s[pos]? = ' ' (from hd): double at j below pos
      have hje : j + 1 = pos := by omega
      exact hmin j hjp ⟨t0, by rw [hje]; exact hd.1⟩
  · rcases Nat.eq_or_lt_of_le hjp with hje | hjgt
    · -- pos = j: r[j+1]? = s[j+2]?, r[j+2]? = s[j+3]? : triple at j+1 in s
      rw [replace2_getElem_gt s pos (j + 1) h2 (by omega)] at t1
      rw [replace2_getElem_gt s pos (j + 2) h2 (by omega)] at t2
      apply hnt (j + 1)
      refine ⟨?_, ?_, ?_⟩
      · rw [show j + 1 = pos + 1 from by omega]
        exact hd.2
      · exact t1
      · unfold spaceAt
        rw [show j + 1 + 2 = j + 2 + 1 from by omega]
        exact t2
    · -- j > pos: triple at j+1 in s
      rw [replace2_getElem_gt s pos j h2 hjgt] at t0
      rw [replace2_getElem_gt s pos (j + 1) h2 (by omega)] at t1
      rw [replace2_getElem_gt s pos (j + 2) h2 (by omega)] at t2
      apply hnt (j + 1)
      refine ⟨t0, t1, ?_⟩
      unfold spaceAt
      rw [show j + 1 + 2 = j + 2 + 1 from by omega]
      exact t2

theorem replace2_noDoubleBelow (s : List Char) (pos : Nat) (h2 : pos + 2 ≤ s.length)
    (hd : isDouble s pos) (hmin : ∀ j, j < pos → ¬ isDouble s j) (hnt : noTriple s) :
    noDoubleBelow (replace2 s pos) (pos + 1) := by
  intro j hj hdd
  obtain ⟨d0, d1⟩ := hdd
  unfold spaceAt at d0 d1
  rcases Nat.lt_or_ge j pos with hjp | hjp
  · rw [replace2_getElem_lt s pos j h2 hjp] at d0
    rcases Nat.lt_or_ge (j + 1) pos with hj1 | hj1
    · rw [replace2_getElem_lt s pos (j + 1) h2 hj1] at d1
      exact hmin j hjp ⟨d0, d1⟩
    · have hje : j + 1 = pos := by omega
      exact hmin j hjp ⟨d0, by rw [hje]; exact hd.1⟩
  · -- j = pos (since j < pos + 1)
    have hje : j = pos := by omega
    subst hje
    rw [replace2_getElem_gt s j (j + 1) h2 (by omega)] at d1
    exact hnt j ⟨hd.1, hd.2, by rw [show j + 2 = j + 1 + 1 from by omega]; exact d1⟩

theorem collapseLoopFuel_noDouble : ∀ (fuel : Nat) (s : List Char) (start : Nat),
    s.length ≤ start + 2 * fuel → noTriple s → noDoubleBelow s start →
    noDouble (collapseLoopFuel fuel s start) := by
  intro fuel
  induction fuel with
  | zero =>
    intro s start hlen _ hbelow j hd
    by_cases hj : j < start
    · exact hbelow j hj hd
    · have hjl := spaceAt_lt s j hd.1
      omega
  | succ fuel ih =>
    intro s start hlen hnt hbelow
    cases hff : findFrom s start with
    | none =>
      rw [show collapseLoopFuel (fuel + 1) s start = s from by
        simp [collapseLoopFuel, hff]]
      intro j hd
      by_cases hj : j < start
      · exact hbelow j hj hd
      · exact findFrom_none s start hff j (by omega) hd
    | some pos =>
      rw [show collapseLoopFuel (fuel + 1) s start
          = collapseLoopFuel fuel (replace2 s pos) (pos + 1) from by
        simp [collapseLoopFuel, hff]]
      obtain ⟨hsp, hdp⟩ := findFrom_some s start pos hff
      have hminp : ∀ j, j < pos → ¬ isDouble s j := by
        intro j hj
        by_cases hjs : j < start
        · exact hbelow j hjs
        · exact findFrom_min s start pos hff j (by omega) hj
      have h2 : pos + 2 ≤ s.length := by
        have := spaceAt_lt s (pos + 1) hdp.2
        omega
      apply ih
      · rw [replace2_length s pos h2]
        omega
      · exact replace2_noTriple s pos h2 hdp hminp hnt
      · exact replace2_noDoubleBelow s pos h2 hdp hminp hnt

theorem hasDoubleB_of_isDouble (s : List Char) : ∀ j, isDouble s j → hasDoubleB s = true := by
  induction s with
  | nil => intro j hd; exact absurd hd.1 (by simp [spaceAt])
  | cons a t ih =>
    intro j hd
    cases t with
    | nil =>
      have h2 := hd.2
      unfold spaceAt at h2
      rcases j with _ | j' <;> simp at h2
    | cons b u =>
      rcases j with _ | j'
      · obtain ⟨h1, h2⟩ := hd
        unfold spaceAt at h1 h2
        simp at h1 h2
        simp [hasDoubleB, h1, h2]
      · have hd' : isDouble (b :: u) j' :=
          ⟨by simpa [spaceAt] using hd.1, by simpa [spaceAt] using hd.2⟩
        simp [hasDoubleB, ih j' hd']

theorem exists_isDouble_of_hasDoubleB (s : List Char) (h : hasDoubleB s = true) :
    ∃ j, isDouble s j := by
  induction s with
  | nil => simp [hasDoubleB] at h
  | cons a t ih =>
    cases t with
    | nil => simp [hasDoubleB] at h
    | cons b u =>
      rw [hasDoubleB] at h
      rcases Bool.or_eq_true_iff.mp h with hab | htail
      · rw [Bool.and_eq_true, decide_eq_true_eq, decide_eq_true_eq] at hab
        exact ⟨0, by simp [isDouble, spaceAt, hab.1, hab.2]⟩
      · obtain ⟨j, hj⟩ := ih htail
        exact ⟨j + 1, ⟨by simpa [spaceAt] using hj.1, by simpa [spaceAt] using hj.2⟩⟩

theorem hasTripleB_of_isTriple (s : List Char) : ∀ j, isTriple s j → hasTripleB s = true := by
  induction s with
  | nil => intro j ht; exact absurd ht.1 (by simp [spaceAt])
  | cons a t ih =>
    intro j ht
    cases t with
    | nil =>
      have h2 := ht.2.1
      unfold spaceAt at h2
      rcases j with _ | j' <;> simp at h2
    | cons b u =>
      cases u with
      | nil =>
        have h3 := ht.2.2
        unfold spaceAt at h3
        rcases j with _ | _ | j' <;> simp at h3
      | cons c v =>
        rcases j with _ | j'
        · obtain ⟨h1, h2, h3⟩ := ht
          unfold spaceAt at h1 h2 h3
          simp at h1 h2 h3
          simp [hasTripleB, h1, h2, h3]
        · have ht' : isTriple (b :: c :: v) j' :=
            ⟨by simpa [spaceAt] using ht.1, by simpa [spaceAt] using ht.2.1,
             by simpa [spaceAt] using ht.2.2⟩
          simp [hasTripleB, ih j' ht']

theorem collapseDoubleSpaces_id (s : List Char) (h : ∀ j, ¬ isDouble s j) :
    collapseDoubleSpaces s = s := by
  have hfa : findAux s = none := by
    cases hf : findAux s with
    | none => rfl
    | some k => exact absurd (findAux_some_isDouble s k hf) (h k)
  unfold collapseDoubleSpaces
  cases s with
  | nil => rfl
  | cons a t =>
    simp [collapseLoopFuel, findFrom, List.drop_zero, hfa]

/-- C4 (amended): the double-space collapse of `unzipFile` removes every
double space only when the colon-replaced path contains no run of three or
more consecutive spaces; because the scan resumes one position past each
replacement (download_funcs.hpp:270), longer runs can leave a double space
behind (see the counterexample theorem). -/
theorem sanitizePath_noDouble_of_noTriple (p : List Char)
    (h : hasTripleB (replaceColonsAfterFirst p) = false) :
    hasDoubleB (sanitizePath p) = false := by
  have hnt : noTriple (replaceColonsAfterFirst p) := by
    intro j hj
    rw [hasTripleB_of_isTriple _ j hj] at h
    exact Bool.noConfusion h
  have hnd : noDouble (collapseDoubleSpaces (replaceColonsAfterFirst p)) := by
    unfold collapseDoubleSpaces
    apply collapseLoopFuel_noDouble _ _ 0 (by omega) hnt
    intro j hj
    omega
  cases hb : hasDoubleB (sanitizePath p) with
  | false => rfl
  | true =>
    obtain ⟨j, hj⟩ := exists_isDouble_of_hasDoubleB _ (by
      rw [← hb])
    exact absurd hj (hnd j)

theorem sanitizePath_noDouble_of_noTriple_witness :
    hasTripleB (replaceColonsAfterFirst (str "/d/a  b.txt")) = false
    ∧ hasDoubleB (sanitizePath (str "/d/a  b.txt")) = false :=
  ⟨by decide, sanitizePath_noDouble_of_noTriple (str "/d/a  b.txt") (by decide)⟩

/-- C4 (counterexample): the entry name `x: ::y.txt` under destination `/d/`
turns into `/d/x:   y.txt` after colon replacement (a run of three spaces);
the collapse loop leaves `/d/x:  y.txt`, whose double space survives — the
collapse is not applied until no double spaces remain. -/
theorem sanitizePath_leaves_double_space :
    hasDoubleB (sanitizePath (str "/d/x: ::y.txt")) = true
    ∧ sanitizePath (str "/d/x: ::y.txt") = str "/d/x:  y.txt" := by
  constructor
  · decide
  · decide

theorem replaceColonsAfterFirst_append (dest ys : List Char)
    (h : hasColonB dest = false) :
    replaceColonsAfterFirst (dest ++ ys) = dest ++ replaceColonsAfterFirst ys := by
  induction dest with
  | nil => simp
  | cons c t ih =>
    by_cases hc : c = ':'
    · rw [hasColonB] at h
      simp [hc] at h
    · rw [hasColonB] at h
      simp only [Bool.or_eq_false_iff, decide_eq_false_iff_not] at h
      simp [List.cons_append, replaceColonsAfterFirst, hc, ih h.2]

theorem hasDoubleB_append (xs ys : List Char) (hx : hasDoubleB xs = false)
    (hy : hasDoubleB ys = false) (hh : ys.head? ≠ some ' ') :
    hasDoubleB (xs ++ ys) = false := by
  induction xs with
  | nil => simpa using hy
  | cons a t ih =>
    cases t with
    | nil =>
      cases ys with
      | nil => simp [hasDoubleB]
      | cons y u =>
        have hy' : ¬ y = ' ' := fun hy' => hh (by simp [hy'])
        simp only [List.cons_append, List.nil_append, hasDoubleB, Bool.or_eq_false_iff]
        exact ⟨by simp [hy'], hy⟩
    | cons b u =>
      rw [hasDoubleB] at hx
      rw [Bool.or_eq_false_iff] at hx
      have ihr := ih hx.2
      simp only [List.cons_append, hasDoubleB, Bool.or_eq_false_iff]
      exact ⟨hx.1, by simpa [List.cons_append] using ihr⟩

/-- C5 (amended): scanning starts at the first colon of the full extracted
path `destinationDir + entryName`, not of the entry name; for a destination
containing no colon (and no double space) the claim holds as stated: the
entry name's first colon is preserved, its second becomes a space, and any
resulting double space is collapsed, e.g. `a:b:c.txt` becomes `a:b c.txt`.
When the destination itself contains a colon (e.g. the `sdmc:/` drive
prefix), every colon of the entry name is converted instead (see the
counterexample theorem). -/
theorem sanitizePath_colon_free_dest (dest : List Char)
    (h1 : hasColonB dest = false) (h2 : hasDoubleB dest = false) :
    sanitizePath (dest ++ str "a:b:c.txt") = dest ++ str "a:b c.txt" := by
  unfold sanitizePath
  rw [replaceColonsAfterFirst_append dest _ h1]
  rw [show replaceColonsAfterFirst (str "a:b:c.txt") = str "a:b c.txt" from by decide]
  apply collapseDoubleSpaces_id
  intro j hd
  have hball : hasDoubleB (dest ++ str "a:b c.txt") = false :=
    hasDoubleB_append dest _ h2 (by decide) (by decide)
  rw [hasDoubleB_of_isDouble _ j hd] at hball
  exact Bool.noConfusion hball

theorem sanitizePath_colon_free_dest_witness :
    sanitizePath (str "/out/" ++ str "a:b:c.txt") = str "/out/" ++ str "a:b c.txt" :=
  sanitizePath_colon_free_dest (str "/out/") (by decide) (by decide)

/-- C5 (counterexample): under the destination `sdmc:/out/` (which contains
the drive colon), extracting the entry `a:b:c.txt` does not produce
`sdmc:/out/a:b c.txt` — the first colon of the full path is the one in
`sdmc:`, so both colons of the entry name become spaces and the file is
created at `sdmc:/out/a b c.txt`. -/
theorem unzipFile_colon_entry_counterexample :
    ((unzipFile true [⟨str "a:b:c.txt", true, true, 7, false⟩] (str "sdmc:/out/")
      ⟨-1, false, false⟩ (fun _ => none)).fs (str "sdmc:/out/a:b c.txt") = none)
    ∧ ((unzipFile true [⟨str "a:b:c.txt", true, true, 7, false⟩] (str "sdmc:/out/")
      ⟨-1, false, false⟩ (fun _ => none)).fs (str "sdmc:/out/a b c.txt") = some 7)
    ∧ sanitizePath (str "sdmc:/out/" ++ str "a:b:c.txt")
        ≠ str "sdmc:/out/" ++ str "a:b c.txt" := by
  refine ⟨by decide, by decide, by decide⟩
